import Mathlib

/-!
Shallow embedding of the `cbuffer` repository (src/cbuffer.hpp, src/buffer.hpp):
a "magic ring" circular byte buffer (`CByteBuffer`) whose physical pages are
mapped repeatedly into one virtual range, and a plain split-copy circular byte
buffer (`ByteBuffer`).

Machine integers (`size_t`, `uint64_t`) are modelled as `Nat`; byte values are
modelled as `Nat` (copies are exact, so the byte domain is irrelevant).  Memory
is modelled as a function `Nat → Nat` over *physical* byte indices `< PSize`;
writing or reading the ring at a virtual offset `i` touches physical byte
`i % PSize`, which is exactly the aliasing the mmap loop in
`CByteBuffer::Allocate` installs (`CByteBuffer` maps page `k` of the virtual
range to file offset `0` for every `k < VSize / PSize`).
-/

/-- The OS page size `sysconf(_SC_PAGESIZE)`, modelled as the 4096 assumed by
the spec's concrete scenarios and by the repository's own tests. -/
def PAGE_SIZE : Nat := 4096

/-- `ToNextPageSize` from src/cbuffer.hpp lines 20-31, parameterised by the
page size:
`if (v < PAGE_SIZE) return PAGE_SIZE; else return ((v + PAGE_SIZE - 1) / PAGE_SIZE) * PAGE_SIZE;`. -/
def ToNextPageSize (pageSize v : Nat) : Nat :=
  if v < pageSize then pageSize
  else ((v + pageSize - 1) / pageSize) * pageSize

/-- Write one byte at virtual offset `i` of a ring whose physical size is `P`:
the MMU aliasing makes this a store to physical byte `i % P`. -/
def writeByte (P : Nat) (mem : Nat → Nat) (i v : Nat) : Nat → Nat :=
  fun j => if j = i % P then v else mem j

/-- A raw copy of the byte list `r` into the ring starting at virtual offset
`a`, byte by byte in increasing address order (the semantics of the single
`memcpy`/store in `Push`). -/
def writeBytes (P : Nat) : (Nat → Nat) → Nat → List Nat → (Nat → Nat)
  | mem, _, [] => mem
  | mem, a, v :: r => writeBytes P (writeByte P mem a v) (a + 1) r

/-- Read one byte at virtual offset `i` (physical byte `i % P`). -/
def readByte (P : Nat) (mem : Nat → Nat) (i : Nat) : Nat :=
  mem (i % P)

/-- Read `len` bytes starting at virtual offset `a`, byte by byte in
increasing address order (the semantics of the single `memcpy`/load in
`Pop`). -/
def readBytes (P : Nat) (mem : Nat → Nat) : Nat → Nat → List Nat
  | _, 0 => []
  | a, len + 1 => readByte P mem a :: readBytes P mem (a + 1) len

/-- Cursor advance of `CByteBuffer::Push`/`Pop` (src/cbuffer.hpp lines 240-245
and 254-259): `cur += s; if (cur >= VSize) cur -= VSize;`. -/
def madvance (V c s : Nat) : Nat :=
  if c + s ≥ V then c + s - V else c + s

/-- State of a `CByteBuffer` (src/cbuffer.hpp lines 160-301).  `Data` is the
physical backing store, a function over physical byte indices `< PSize`. -/
structure MState where
  PSize : Nat
  VSize : Nat
  Data : Nat → Nat
  Head : Nat
  Tail : Nat

/-- `CByteBuffer::Push<T>` (src/cbuffer.hpp lines 235-246): one unconditional
copy of `sizeof(T)` bytes at virtual offset `Head`, then `Head += sizeof(T)`
with a single conditional subtract of `VSize`.  The record is its byte list. -/
def CPush (s : MState) (r : List Nat) : MState :=
  { s with Data := writeBytes s.PSize s.Data s.Head r,
           Head := madvance s.VSize s.Head r.length }

/-- `CByteBuffer::Pop<T>` (src/cbuffer.hpp lines 248-262): one unconditional
copy of `sizeof(T)` bytes from virtual offset `Tail`, then `Tail += sizeof(T)`
with a single conditional subtract of `VSize`. -/
def CPop (s : MState) (len : Nat) : List Nat × MState :=
  (readBytes s.PSize s.Data s.Tail len,
   { s with Tail := madvance s.VSize s.Tail len })

/-- `CByteBuffer::Reset` (src/cbuffer.hpp lines 209-213). -/
def CReset (s : MState) : MState :=
  { s with Head := 0, Tail := 0 }

/-- The size fix-ups at the top of `CByteBuffer::Allocate` (src/cbuffer.hpp
lines 269-273): `if (VSize < PSize) VSize = PSize;
if (PSize == 4096) VSize = 4294803456;`. -/
def allocAdjustV (PSize V : Nat) : Nat :=
  let V1 := if V < PSize then PSize else V
  if PSize = 4096 then 4294803456 else V1

/-- `CByteBuffer()` (src/cbuffer.hpp lines 171-176): `PSize = page size`,
`VSize = 4294967296`, then `Allocate` zero-initialises head, tail and the
memfd-backed pages. -/
def mkCByteBuffer0 : MState :=
  { PSize := PAGE_SIZE, VSize := allocAdjustV PAGE_SIZE 4294967296,
    Data := fun _ => 0, Head := 0, Tail := 0 }

/-- `CByteBuffer(size_t pbuffer_size_)` (src/cbuffer.hpp lines 180-185). -/
def mkCByteBuffer1 (pReq : Nat) : MState :=
  { PSize := ToNextPageSize PAGE_SIZE pReq,
    VSize := allocAdjustV (ToNextPageSize PAGE_SIZE pReq) 4294967296,
    Data := fun _ => 0, Head := 0, Tail := 0 }

/-- `CByteBuffer(size_t pbuffer_size_, uint8_t vbuffer_mult_)` (src/cbuffer.hpp
lines 189-194): `VSize = vbuffer_mult_ * PSize`. -/
def mkCByteBuffer2 (pReq vMult : Nat) : MState :=
  { PSize := ToNextPageSize PAGE_SIZE pReq,
    VSize := allocAdjustV (ToNextPageSize PAGE_SIZE pReq) (vMult * ToNextPageSize PAGE_SIZE pReq),
    Data := fun _ => 0, Head := 0, Tail := 0 }

/-- `CByteBuffer::GetPageCount` (src/cbuffer.hpp lines 219-222):
`VSize / PSize` in integer division. -/
def GetPageCount (s : MState) : Nat :=
  s.VSize / s.PSize

/-- The number of virtual bytes actually covered by the `mmap` loop of
`CByteBuffer::Allocate` (src/cbuffer.hpp lines 289-298): the loop installs
`GetPageCount` pages of `PSize` bytes each, starting at offset 0. -/
def mappedLimit (s : MState) : Nat :=
  GetPageCount s * s.PSize

/-- Where virtual offset `i` lands: the `Allocate` loop maps virtual page `k`
(for `k < GetPageCount`) onto file offset 0, so `i` refers to physical byte
`i % PSize` when `i < mappedLimit`, and to no mapped byte at all otherwise
(the tail of the reservation keeps `PROT_NONE`). -/
def mapsTo (s : MState) (i : Nat) : Option Nat :=
  if i < mappedLimit s then some (i % s.PSize) else none

/-- Byte read through the actual page mapping; `none` models the fault on an
unmapped (PROT_NONE) address. -/
def readByteMapped (s : MState) (i : Nat) : Option Nat :=
  (mapsTo s i).map s.Data

/-- Byte write through the actual page mapping; `none` models the fault on an
unmapped (PROT_NONE) address. -/
def writeByteMapped (s : MState) (i v : Nat) : Option MState :=
  (mapsTo s i).map (fun j => { s with Data := fun j' => if j' = j then v else s.Data j' })

/-- Push a whole sequence of records, first record first. -/
def CPushAll (s : MState) (rs : List (List Nat)) : MState :=
  rs.foldl CPush s

/-- Pop a sequence of records of the given byte sizes, returning them in pop
order together with the final state. -/
def CPopAll : MState → List Nat → List (List Nat) × MState
  | s, [] => ([], s)
  | s, len :: lens =>
    ((CPop s len).1 :: (CPopAll (CPop s len).2 lens).1,
     (CPopAll (CPop s len).2 lens).2)

/-- The virtual byte offsets touched by the single unconditional copy of a
`CByteBuffer::Push`/`Pop` of `len` bytes at cursor `c`: `[c, c + len)`. -/
def accessOffsets (c len : Nat) : List Nat :=
  (List.range len).map (fun t => c + t)

/-- State of a `ByteBuffer` (src/buffer.hpp lines 78-162), the split-copy ring
over a flat allocation of `Capacity` bytes. -/
structure SState where
  Capacity : Nat
  Data : Nat → Nat
  Head : Nat
  Tail : Nat

/-- `ByteBuffer(size_t Capacity_)` (src/buffer.hpp lines 86-89); `malloc`
contents are indeterminate, so the initial bytes are a parameter. -/
def mkByteBuffer (cap : Nat) (init : Nat → Nat) : SState :=
  { Capacity := cap, Data := init, Head := 0, Tail := 0 }

/-- `ByteBuffer::Push<T>` (src/buffer.hpp lines 117-137).  Hot path
(`Head + sizeof(T) <= Capacity`): one contiguous copy, advance, wrap to 0 on
exact fit.  Cold path: copy `firstPart = Capacity - Head` bytes to
`[Head, Capacity)` and the remaining `secondPart` bytes to `[0, secondPart)`;
`Head = secondPart`.  (All offsets stay `< Capacity`, so `writeBytes Capacity`
writes exactly those cells.) -/
def SPush (s : SState) (r : List Nat) : SState :=
  if s.Head + r.length ≤ s.Capacity then
    { s with Data := writeBytes s.Capacity s.Data s.Head r,
             Head := if s.Head + r.length = s.Capacity then 0 else s.Head + r.length }
  else
    let firstPart := s.Capacity - s.Head
    let secondPart := r.length - firstPart
    { s with Data := writeBytes s.Capacity (writeBytes s.Capacity s.Data s.Head (r.take firstPart)) 0 (r.drop firstPart),
             Head := secondPart }

/-- `ByteBuffer::Pop<T>` (src/buffer.hpp lines 139-161).  Hot path: one
contiguous read, advance, wrap to 0 on exact fit.  Cold path: read
`firstPart = Capacity - Tail` bytes from `[Tail, Capacity)` then `secondPart`
bytes from `[0, secondPart)`; `Tail = secondPart`. -/
def SPop (s : SState) (len : Nat) : List Nat × SState :=
  if s.Tail + len ≤ s.Capacity then
    (readBytes s.Capacity s.Data s.Tail len,
     { s with Tail := if s.Tail + len = s.Capacity then 0 else s.Tail + len })
  else
    let firstPart := s.Capacity - s.Tail
    let secondPart := len - firstPart
    (readBytes s.Capacity s.Data s.Tail firstPart ++ readBytes s.Capacity s.Data 0 secondPart,
     { s with Tail := secondPart })

/-- `ByteBuffer::Reset` (src/buffer.hpp lines 96-102). -/
def SReset (s : SState) : SState :=
  { s with Head := 0, Tail := 0 }

/-- The cursor advance performed by `ByteBuffer::Push`/`Pop` for a record of
`s` bytes at cursor `c` (extracted from the two branches of src/buffer.hpp
lines 121-136). -/
def sadvance (P c s : Nat) : Nat :=
  if c + s ≤ P then (if c + s = P then 0 else c + s) else s - (P - c)

/-- Push a whole sequence of records into a `ByteBuffer`. -/
def SPushAll (s : SState) (rs : List (List Nat)) : SState :=
  rs.foldl SPush s

/-- Pop a sequence of records of the given byte sizes from a `ByteBuffer`. -/
def SPopAll : SState → List Nat → List (List Nat) × SState
  | s, [] => ([], s)
  | s, len :: lens =>
    ((SPop s len).1 :: (SPopAll (SPop s len).2 lens).1,
     (SPopAll (SPop s len).2 lens).2)

/-- Which OS steps fail during an allocation: the `mmap` reservation, the
`memfd_create`, or the fixed-address `mmap` of iteration `i` of the install
loop. -/
structure AllocFaults where
  reserveFails : Bool
  memfdFails : Bool
  installFailsAt : Option Nat
deriving DecidableEq

/-- What an `Allocate` run leaves behind: whether the virtual reservation is
still mapped and whether the memfd handle is still open. -/
structure AllocResources where
  reservationMapped : Bool
  fdOpen : Bool
deriving DecidableEq

/-- `CByteBuffer::Allocate` (src/cbuffer.hpp lines 265-300) as a function of
which OS calls fail: returns the thrown message (if any) and the resources
left behind.  Reserve failure: nothing acquired.  `memfd_create` failure: the
code throws **without** unmapping the reservation (line 285).  Install
failure at any loop iteration `i < GetPageCount`: the code unmaps the whole
range and closes the fd (lines 294-295).  Success: fd closed, mapping owned. -/
def CByteBufferAllocate (pageCount : Nat) (f : AllocFaults) : Option String × AllocResources :=
  if f.reserveFails then (some "Virtual reservation failed", ⟨false, false⟩)
  else if f.memfdFails then (some "memfd_create failed", ⟨true, false⟩)
  else match f.installFailsAt with
    | some i =>
      if i < pageCount then (some "Physical mapping failed", ⟨false, false⟩)
      else (none, ⟨true, false⟩)
    | none => (none, ⟨true, false⟩)

/-- `CBuffer<T>::Allocate` (src/cbuffer.hpp lines 120-151): same structure,
but on an install failure the code only does `close(fd)`; it never unmaps the
reservation (lines 146-147), and the `memfd_create` failure branch (line 137)
does not unmap either. -/
def CBufferAllocate (pageCount : Nat) (f : AllocFaults) : Option String × AllocResources :=
  if f.reserveFails then (some "Virtual reservation failed", ⟨false, false⟩)
  else if f.memfdFails then (some "memfd_create failed", ⟨true, false⟩)
  else match f.installFailsAt with
    | some i =>
      if i < pageCount then (some "Physical mapping failed", ⟨true, false⟩)
      else (none, ⟨true, false⟩)
    | none => (none, ⟨true, false⟩)

/-- Total byte count of a sequence of records. -/
def totalLen (rs : List (List Nat)) : Nat :=
  (rs.map List.length).sum

lemma totalLen_nil : totalLen [] = 0 := rfl

lemma totalLen_cons (r : List Nat) (rs : List (List Nat)) :
    totalLen (r :: rs) = r.length + totalLen rs := by
  simp [totalLen]

lemma totalLen_pos (r : List Nat) (rs : List (List Nat))
    (h : ∀ x ∈ r :: rs, 1 ≤ List.length x) : 1 ≤ totalLen (r :: rs) := by
  have := h r (by simp)
  rw [totalLen_cons]; omega

/-- Two offsets in a window of width `≤ P` that agree modulo `P` are equal. -/
lemma mod_shift_inj {P c t u : Nat} (ht : t < P) (hu : u < P)
    (h : (c + t) % P = (c + u) % P) : t = u := by
  have h2 : t ≡ u [MOD P] := Nat.ModEq.add_left_cancel' c h
  have h3 : t % P = u % P := h2
  rwa [Nat.mod_eq_of_lt ht, Nat.mod_eq_of_lt hu] at h3

/-- A copy leaves every physical cell outside its write set unchanged. -/
lemma writeBytes_apply_frame (P : Nat) (mem : Nat → Nat) (a : Nat)
    (r : List Nat) (j : Nat) (h : ∀ t, t < r.length → (a + t) % P ≠ j) :
    writeBytes P mem a r j = mem j := by
  induction r generalizing mem a with
  | nil => rfl
  | cons v r ih =>
    simp only [writeBytes]
    rw [ih]
    · have h0 : a % P ≠ j := by simpa using h 0 (by simp)
      show (if j = a % P then v else mem j) = mem j
      rw [if_neg (fun hj => h0 hj.symm)]
    · intro t ht
      have := h (t + 1) (by simp; omega)
      have harith : a + (t + 1) = a + 1 + t := by omega
      rwa [harith] at this

/-- Reading a byte whose physical cell a copy did not touch. -/
lemma readByte_writeBytes_frame (P : Nat) (mem : Nat → Nat) (a : Nat)
    (r : List Nat) (i : Nat) (h : ∀ t, t < r.length → (a + t) % P ≠ i % P) :
    readByte P (writeBytes P mem a r) i = readByte P mem i :=
  writeBytes_apply_frame P mem a r (i % P) h

/-- Reading a window whose physical cells a copy did not touch. -/
lemma readBytes_writeBytes_frame (P : Nat) (mem : Nat → Nat) (a : Nat)
    (r : List Nat) (b n : Nat)
    (h : ∀ t u, t < r.length → u < n → (a + t) % P ≠ (b + u) % P) :
    readBytes P (writeBytes P mem a r) b n = readBytes P mem b n := by
  induction n generalizing b with
  | zero => rfl
  | succ n ih =>
    simp only [readBytes]
    refine congrArg₂ _ ?_ (ih (b + 1) ?_)
    · exact readByte_writeBytes_frame P mem a r b
        (fun t ht => by simpa using h t 0 ht (Nat.succ_pos n))
    · intro t u ht hu
      have := h t (u + 1) ht (by omega)
      have harith : b + (u + 1) = b + 1 + u := by omega
      rwa [harith] at this

/-- Copying a concatenation is copying the parts one after the other. -/
lemma writeBytes_append (P : Nat) (mem : Nat → Nat) (a : Nat)
    (r1 r2 : List Nat) :
    writeBytes P mem a (r1 ++ r2)
      = writeBytes P (writeBytes P mem a r1) (a + r1.length) r2 := by
  induction r1 generalizing mem a with
  | nil => simp [writeBytes]
  | cons v r1 ih =>
    show writeBytes P (writeByte P mem a v) (a + 1) (r1 ++ r2)
        = writeBytes P (writeBytes P (writeByte P mem a v) (a + 1) r1)
            (a + (r1.length + 1)) r2
    rw [ih]
    have harith : a + 1 + r1.length = a + (r1.length + 1) := by omega
    rw [harith]

/-- Reading back a just-written window (at any base congruent to the write
base modulo `P`) recovers the record, provided the record is no longer than
the physical window. -/
lemma readBytes_writeBytes_self (P : Nat) (mem : Nat → Nat) (a b : Nat)
    (r : List Nat) (hlen : r.length ≤ P) (hab : a % P = b % P) :
    readBytes P (writeBytes P mem a r) b r.length = r := by
  induction r generalizing mem a b with
  | nil => rfl
  | cons v r ih =>
    have hP : 0 < P := lt_of_lt_of_le (Nat.succ_pos _) (by simpa using hlen)
    simp only [writeBytes, List.length_cons, readBytes]
    refine congrArg₂ _ ?_ ?_
    · rw [readByte_writeBytes_frame]
      · show writeByte P mem a v (b % P) = v
        simp [writeByte, hab]
      · intro t ht hmod
        have hlenP : r.length + 1 ≤ P := by simpa using hlen
        have hlt : 1 + t < P := by omega
        have hmod2 : (a + (1 + t)) % P = (a + 0) % P := by
          have harith : a + (1 + t) = a + 1 + t := by omega
          rw [harith, hmod, ← hab]
          simp
        have h10 : 1 + t = 0 := mod_shift_inj hlt hP hmod2
        omega
    · refine ih (writeByte P mem a v) (a + 1) (b + 1) ?_ ?_
      · have hlenP : r.length + 1 ≤ P := by simpa using hlen
        omega
      · have hmeq : a ≡ b [MOD P] := hab
        exact hmeq.add_right 1

lemma madvance_of_lt {V c s : Nat} (h : c + s < V) : madvance V c s = c + s := by
  unfold madvance
  rw [if_neg (by omega)]

/-- `Push` never touches `Tail` or the sizes. -/
lemma CPushAll_frame (rs : List (List Nat)) (s : MState) :
    (CPushAll s rs).Tail = s.Tail ∧ (CPushAll s rs).PSize = s.PSize ∧
      (CPushAll s rs).VSize = s.VSize := by
  induction rs generalizing s with
  | nil => exact ⟨rfl, rfl, rfl⟩
  | cons r rs ih => exact ih (CPush s r)

/-- Memory after pushing a record sequence that fits before the virtual end:
one big copy of the concatenated bytes starting at the initial head. -/
lemma CPushAll_Data (rs : List (List Nat)) :
    ∀ s : MState, (∀ r ∈ rs, 1 ≤ r.length) →
      s.Head + totalLen rs ≤ s.VSize →
      (CPushAll s rs).Data = writeBytes s.PSize s.Data s.Head rs.flatten := by
  induction rs with
  | nil => intro s _ _; rfl
  | cons r rs ih =>
    intro s hpos hbound
    show (CPushAll (CPush s r) rs).Data
        = writeBytes s.PSize s.Data s.Head ((r :: rs).flatten)
    rw [totalLen_cons] at hbound
    cases rs with
    | nil =>
      show (CPush s r).Data = writeBytes s.PSize s.Data s.Head (r ++ [])
      rw [List.append_nil]
      rfl
    | cons r2 rs2 =>
      have hpos' : ∀ x ∈ r2 :: rs2, 1 ≤ x.length := fun x hx => hpos x (by simp [hx])
      have h1 : 1 ≤ totalLen (r2 :: rs2) := totalLen_pos r2 rs2 hpos'
      have hHead : (CPush s r).Head = s.Head + r.length :=
        madvance_of_lt (by omega)
      have ihres := ih (CPush s r) hpos' (by rw [hHead]; show _ + _ ≤ s.VSize; omega)
      rw [ihres, hHead]
      show writeBytes s.PSize (writeBytes s.PSize s.Data s.Head r)
            (s.Head + r.length) (r2 :: rs2).flatten
          = writeBytes s.PSize s.Data s.Head (r ++ (r2 :: rs2).flatten)
      rw [writeBytes_append]

/-- Popping record sizes back out of a memory that holds the concatenated
records (written within one physical window) returns exactly those records. -/
lemma CPopAll_reads (rs : List (List Nat)) :
    ∀ (s : MState) (mem0 : Nat → Nat) (c : Nat),
      s.Data = writeBytes s.PSize mem0 c rs.flatten →
      s.Tail = c →
      totalLen rs ≤ s.PSize →
      c + totalLen rs ≤ s.VSize →
      (∀ r ∈ rs, 1 ≤ r.length) →
      (CPopAll s (rs.map List.length)).1 = rs := by
  induction rs with
  | nil => intro s mem0 c _ _ _ _ _; rfl
  | cons r rs ih =>
    intro s mem0 c hdata htail hP hV hpos
    have hP0 : 0 < s.PSize := by
      have := totalLen_pos r rs hpos
      omega
    rw [totalLen_cons] at hP hV
    have hjoin : rs.flatten.length = totalLen rs := by
      simp [totalLen]
    have hsplit : writeBytes s.PSize mem0 c ((r :: rs).flatten)
        = writeBytes s.PSize (writeBytes s.PSize mem0 c r) (c + r.length) rs.flatten := by
      show writeBytes s.PSize mem0 c (r ++ rs.flatten) = _
      rw [writeBytes_append]
    have hfirst : readBytes s.PSize s.Data s.Tail r.length = r := by
      rw [htail, hdata, hsplit, readBytes_writeBytes_frame]
      · exact readBytes_writeBytes_self _ _ _ _ _ (by omega) rfl
      · intro t u ht hu heq
        rw [hjoin] at ht
        have h1 : r.length + t < s.PSize := by omega
        have h2 : u < s.PSize := by omega
        have harith : c + r.length + t = c + (r.length + t) := by omega
        rw [harith] at heq
        have := mod_shift_inj h1 h2 heq
        omega
    show (CPop s r.length).1 :: (CPopAll (CPop s r.length).2 (rs.map List.length)).1
        = r :: rs
    have hv : (CPop s r.length).1 = r := hfirst
    rw [hv]
    cases rs with
    | nil => rfl
    | cons r2 rs2 =>
      have hpos' : ∀ x ∈ r2 :: rs2, 1 ≤ x.length := fun x hx => hpos x (by simp [hx])
      have h1 : 1 ≤ totalLen (r2 :: rs2) := totalLen_pos r2 rs2 hpos'
      have hadv : madvance s.VSize s.Tail r.length = c + r.length := by
        rw [htail]; exact madvance_of_lt (by omega)
      refine congrArg _ (ih (CPop s r.length).2 (writeBytes s.PSize mem0 c r)
        (c + r.length) ?_ ?_ ?_ ?_ hpos')
      · show s.Data = writeBytes s.PSize (writeBytes s.PSize mem0 c r)
          (c + r.length) (r2 :: rs2).flatten
        rw [hdata, hsplit]
      · exact hadv
      · show totalLen (r2 :: rs2) ≤ s.PSize
        omega
      · show c + r.length + totalLen (r2 :: rs2) ≤ s.VSize
        omega

lemma SPush_Data_hot (s : SState) (r : List Nat)
    (h : s.Head + r.length ≤ s.Capacity) :
    (SPush s r).Data = writeBytes s.Capacity s.Data s.Head r := by
  unfold SPush
  rw [if_pos h]

lemma SPush_Head_hot_lt (s : SState) (r : List Nat)
    (h : s.Head + r.length < s.Capacity) :
    (SPush s r).Head = s.Head + r.length := by
  unfold SPush
  rw [if_pos (le_of_lt h)]
  show (if s.Head + r.length = s.Capacity then 0 else s.Head + r.length) = _
  rw [if_neg (by omega)]

/-- `ByteBuffer::Push` never touches `Tail` or `Capacity`. -/
lemma SPush_Tail (s : SState) (r : List Nat) :
    (SPush s r).Tail = s.Tail ∧ (SPush s r).Capacity = s.Capacity := by
  unfold SPush
  split
  · exact ⟨rfl, rfl⟩
  · exact ⟨rfl, rfl⟩

lemma SPushAll_frame (rs : List (List Nat)) (s : SState) :
    (SPushAll s rs).Tail = s.Tail ∧ (SPushAll s rs).Capacity = s.Capacity := by
  induction rs generalizing s with
  | nil => exact ⟨rfl, rfl⟩
  | cons r rs ih =>
    have h1 := SPush_Tail s r
    have h2 := ih (SPush s r)
    exact ⟨h1.1 ▸ h2.1, h1.2 ▸ h2.2⟩

/-- Memory after pushing a record sequence that fits in the remaining
capacity: one big copy of the concatenated bytes (all pushes take the hot
path). -/
lemma SPushAll_Data (rs : List (List Nat)) :
    ∀ s : SState, (∀ r ∈ rs, 1 ≤ r.length) →
      s.Head + totalLen rs ≤ s.Capacity →
      (SPushAll s rs).Data = writeBytes s.Capacity s.Data s.Head rs.flatten := by
  induction rs with
  | nil => intro s _ _; rfl
  | cons r rs ih =>
    intro s hpos hbound
    show (SPushAll (SPush s r) rs).Data
        = writeBytes s.Capacity s.Data s.Head ((r :: rs).flatten)
    rw [totalLen_cons] at hbound
    cases rs with
    | nil =>
      show (SPush s r).Data = writeBytes s.Capacity s.Data s.Head (r ++ [])
      rw [List.append_nil]
      exact SPush_Data_hot s r (by omega)
    | cons r2 rs2 =>
      have hpos' : ∀ x ∈ r2 :: rs2, 1 ≤ x.length := fun x hx => hpos x (by simp [hx])
      have h1 : 1 ≤ totalLen (r2 :: rs2) := totalLen_pos r2 rs2 hpos'
      have hcap := (SPush_Tail s r).2
      have hHead : (SPush s r).Head = s.Head + r.length :=
        SPush_Head_hot_lt s r (by omega)
      have hdat : (SPush s r).Data = writeBytes s.Capacity s.Data s.Head r :=
        SPush_Data_hot s r (by omega)
      have ihres := ih (SPush s r) hpos' (by rw [hHead, hcap]; omega)
      rw [ihres, hHead, hcap, hdat]
      show writeBytes s.Capacity (writeBytes s.Capacity s.Data s.Head r)
            (s.Head + r.length) (r2 :: rs2).flatten
          = writeBytes s.Capacity s.Data s.Head (r ++ (r2 :: rs2).flatten)
      rw [writeBytes_append]

/-- Popping record sizes out of a `ByteBuffer` holding the concatenated
records returns exactly those records (all pops take the hot path). -/
lemma SPopAll_reads (rs : List (List Nat)) :
    ∀ (s : SState) (mem0 : Nat → Nat) (c : Nat),
      s.Data = writeBytes s.Capacity mem0 c rs.flatten →
      s.Tail = c →
      c + totalLen rs ≤ s.Capacity →
      (∀ r ∈ rs, 1 ≤ r.length) →
      (SPopAll s (rs.map List.length)).1 = rs := by
  induction rs with
  | nil => intro s mem0 c _ _ _ _; rfl
  | cons r rs ih =>
    intro s mem0 c hdata htail hC hpos
    have hC0 : 0 < s.Capacity := by
      have := totalLen_pos r rs hpos
      omega
    rw [totalLen_cons] at hC
    have hjoin : rs.flatten.length = totalLen rs := by
      simp [totalLen]
    have hsplit : writeBytes s.Capacity mem0 c ((r :: rs).flatten)
        = writeBytes s.Capacity (writeBytes s.Capacity mem0 c r) (c + r.length) rs.flatten := by
      show writeBytes s.Capacity mem0 c (r ++ rs.flatten) = _
      rw [writeBytes_append]
    have hhot : s.Tail + r.length ≤ s.Capacity := by rw [htail]; omega
    have hpop : SPop s r.length
        = (readBytes s.Capacity s.Data s.Tail r.length,
           { s with Tail := if s.Tail + r.length = s.Capacity then 0
                            else s.Tail + r.length }) := by
      unfold SPop
      rw [if_pos hhot]
    have hfirst : (SPop s r.length).1 = r := by
      rw [hpop]
      show readBytes s.Capacity s.Data s.Tail r.length = r
      rw [htail, hdata, hsplit, readBytes_writeBytes_frame]
      · exact readBytes_writeBytes_self _ _ _ _ _ (by omega) rfl
      · intro t u ht hu heq
        rw [hjoin] at ht
        have h1 : r.length + t < s.Capacity := by omega
        have h2 : u < s.Capacity := by omega
        have harith : c + r.length + t = c + (r.length + t) := by omega
        rw [harith] at heq
        have := mod_shift_inj h1 h2 heq
        omega
    show (SPop s r.length).1 :: (SPopAll (SPop s r.length).2 (rs.map List.length)).1
        = r :: rs
    rw [hfirst]
    cases rs with
    | nil => rfl
    | cons r2 rs2 =>
      have hpos' : ∀ x ∈ r2 :: rs2, 1 ≤ x.length := fun x hx => hpos x (by simp [hx])
      have h1 : 1 ≤ totalLen (r2 :: rs2) := totalLen_pos r2 rs2 hpos'
      have hst : (SPop s r.length).2
          = { s with Tail := if s.Tail + r.length = s.Capacity then 0
                             else s.Tail + r.length } := by
        rw [hpop]
      refine congrArg _ (ih (SPop s r.length).2 (writeBytes s.Capacity mem0 c r)
        (c + r.length) ?_ ?_ ?_ hpos')
      · rw [hst]
        show s.Data = writeBytes s.Capacity (writeBytes s.Capacity mem0 c r)
          (c + r.length) (r2 :: rs2).flatten
        rw [hdata, hsplit]
      · rw [hst]
        show (if s.Tail + r.length = s.Capacity then 0 else s.Tail + r.length)
            = c + r.length
        rw [if_neg (by rw [htail]; omega), htail]
      · rw [hst]
        show c + r.length + totalLen (r2 :: rs2) ≤ s.Capacity
        omega

lemma ToNextPageSize_mod (ps n : Nat) (h : 0 < ps) : ToNextPageSize ps n % ps = 0 := by
  unfold ToNextPageSize
  split
  · exact Nat.mod_self ps
  · exact Nat.mul_mod_left _ ps

lemma ToNextPageSize_ge_page (ps n : Nat) (h : 0 < ps) : ps ≤ ToNextPageSize ps n := by
  unfold ToNextPageSize
  split
  · exact le_refl ps
  · rename_i hn
    have hq : 0 < (n + ps - 1) / ps := Nat.div_pos (by omega) h
    exact Nat.le_mul_of_pos_left ps hq

lemma ToNextPageSize_ge_self (ps n : Nat) (h : 0 < ps) : n ≤ ToNextPageSize ps n := by
  unfold ToNextPageSize
  split
  · omega
  · have hdm := Nat.div_add_mod (n + ps - 1) ps
    have hr : (n + ps - 1) % ps < ps := Nat.mod_lt _ h
    rw [Nat.mul_comm]
    omega

lemma ToNextPageSize_min (ps n m : Nat) (h : 0 < ps) (hn : n ≤ m) (hp : ps ≤ m)
    (hm : m % ps = 0) : ToNextPageSize ps n ≤ m := by
  unfold ToNextPageSize
  split
  · exact hp
  · have hdm := Nat.div_add_mod m ps
    have hk : ps * (m / ps) = m := by omega
    have h1 : (n + ps - 1) / ps ≤ (m + ps - 1) / ps :=
      Nat.div_le_div_right (by omega)
    have h2 : (m + ps - 1) / ps = m / ps := by
      have harith : m + ps - 1 = (ps - 1) + ps * (m / ps) := by omega
      rw [harith, Nat.add_mul_div_left _ _ h, Nat.div_eq_of_lt (by omega)]
      omega
    calc (n + ps - 1) / ps * ps ≤ m / ps * ps :=
          Nat.mul_le_mul_right ps (by omega)
      _ = m := by rw [Nat.mul_comm]; omega

lemma allocAdjustV_ge (P V : Nat) : P ≤ allocAdjustV P V := by
  simp only [allocAdjustV]
  by_cases h4 : P = 4096
  · rw [if_pos h4]; omega
  · rw [if_neg h4]; split <;> omega

lemma allocAdjustV_mod (P V : Nat) (hP : 0 < P) (hV : V % P = 0) :
    allocAdjustV P V % P = 0 := by
  simp only [allocAdjustV]
  by_cases h4 : P = 4096
  · rw [if_pos h4, h4]
  · rw [if_neg h4]
    split
    · exact Nat.mod_self P
    · exact hV

lemma madvance_mod {V c s : Nat} (hc : c < V) (hs : s ≤ V) :
    madvance V c s = (c + s) % V := by
  unfold madvance
  split
  · rename_i h
    rw [Nat.mod_eq_sub_mod h, Nat.mod_eq_of_lt (by omega)]
  · rename_i h
    rw [Nat.mod_eq_of_lt (by omega)]

lemma madvance_lt {V c s : Nat} (h0 : 0 < V) (hc : c < V) (hs : s ≤ V) :
    madvance V c s < V := by
  rw [madvance_mod hc hs]
  exact Nat.mod_lt _ h0

lemma sadvance_mod {P c s : Nat} (hc : c < P) (hs : s ≤ P) :
    sadvance P c s = (c + s) % P := by
  unfold sadvance
  split
  · rename_i h
    split
    · rename_i he
      rw [he, Nat.mod_self]
    · rename_i he
      rw [Nat.mod_eq_of_lt (by omega)]
  · rename_i h
    have harith : s - (P - c) = c + s - P := by omega
    rw [harith, Nat.mod_eq_sub_mod (by omega), Nat.mod_eq_of_lt (by omega)]

/-- Folding any advance function that is addition modulo `B` over a list of
record sizes lands on addition of the total modulo `B`. -/
lemma foldl_advance_mod (B : Nat) (f : Nat → Nat → Nat) (h0 : 0 < B)
    (hf : ∀ c s, c < B → s ≤ B → f c s = (c + s) % B) :
    ∀ (lens : List Nat) (c : Nat), c < B → (∀ s ∈ lens, s ≤ B) →
      List.foldl f c lens = (c + lens.sum) % B := by
  intro lens
  induction lens with
  | nil =>
    intro c hc _
    simp [Nat.mod_eq_of_lt hc]
  | cons l ls ih =>
    intro c hc hall
    have hl : l ≤ B := hall l (by simp)
    simp only [List.foldl_cons, List.sum_cons]
    rw [hf c l hc hl, ih ((c + l) % B) (Nat.mod_lt _ h0)
      (fun s hs => hall s (by simp [hs])), Nat.mod_add_mod, Nat.add_assoc]

/-- Head evolution of a push sequence is the fold of `madvance` over the
record sizes. -/
lemma CPushAll_Head (rs : List (List Nat)) :
    ∀ s : MState, (CPushAll s rs).Head
      = List.foldl (madvance s.VSize) s.Head (rs.map List.length) := by
  induction rs with
  | nil => intro s; rfl
  | cons r rs ih =>
    intro s
    show (CPushAll (CPush s r) rs).Head = _
    rw [ih (CPush s r)]
    rfl

/-- C9 (confirmed): `ToNextPageSize` returns the least `m ≥ max(n, page_size)`
with `m % page_size = 0`; for `n < page_size` (including `n = 0`) it returns
`page_size`; with `page_size = 4096` it maps `5000 ↦ 8192` and
`50000 ↦ 53248`. -/
theorem c9_page_round (ps n : Nat) (h : 0 < ps) :
    ToNextPageSize ps n % ps = 0 ∧
    n ≤ ToNextPageSize ps n ∧
    ps ≤ ToNextPageSize ps n ∧
    (∀ m, n ≤ m → ps ≤ m → m % ps = 0 → ToNextPageSize ps n ≤ m) ∧
    (n < ps → ToNextPageSize ps n = ps) ∧
    ToNextPageSize 4096 0 = 4096 ∧
    ToNextPageSize 4096 5000 = 8192 ∧
    ToNextPageSize 4096 50000 = 53248 :=
  ⟨ToNextPageSize_mod ps n h, ToNextPageSize_ge_self ps n h,
   ToNextPageSize_ge_page ps n h,
   fun m hn hp hm => ToNextPageSize_min ps n m h hn hp hm,
   fun hlt => by unfold ToNextPageSize; rw [if_pos hlt],
   by decide, by decide, by decide⟩

/-- C9 witness: the theorem at `ps = 4096`, `n = 5000`. -/
theorem c9_page_round_witness :
    0 < 4096 ∧ ToNextPageSize 4096 5000 % 4096 = 0 :=
  ⟨by decide, (c9_page_round 4096 5000 (by decide)).1⟩

/-- C3 counterexample: the one-argument constructor with `p_req = 50000`
yields `PSize = 53248` and keeps the default `VSize = 4294967296`, which is
not a multiple of `PSize` (`4294967296 % 53248 = 36864`). -/
theorem c3_counterexample :
    (mkCByteBuffer1 50000).PSize = 53248 ∧
    (mkCByteBuffer1 50000).VSize = 4294967296 ∧
    (mkCByteBuffer1 50000).VSize % (mkCByteBuffer1 50000).PSize = 36864 := by
  refine ⟨by decide, by decide, by decide⟩

/-- C3 (amended): every constructor gives `PSize > 0`, `PSize` a multiple of
the page size and `PSize ≤ VSize`, and these sizes are preserved by every
`Push`/`Pop`/`Reset`; `VSize % PSize = 0` additionally holds for the default
constructor and the two-argument constructor, but not in general for the
one-argument constructor (see the counterexample). -/
theorem c3_size_invariants :
    (∀ pReq vMult,
      0 < (mkCByteBuffer2 pReq vMult).PSize ∧
      (mkCByteBuffer2 pReq vMult).PSize % PAGE_SIZE = 0 ∧
      (mkCByteBuffer2 pReq vMult).PSize ≤ (mkCByteBuffer2 pReq vMult).VSize ∧
      (mkCByteBuffer2 pReq vMult).VSize % (mkCByteBuffer2 pReq vMult).PSize = 0) ∧
    (0 < mkCByteBuffer0.PSize ∧ mkCByteBuffer0.PSize % PAGE_SIZE = 0 ∧
      mkCByteBuffer0.PSize ≤ mkCByteBuffer0.VSize ∧
      mkCByteBuffer0.VSize % mkCByteBuffer0.PSize = 0) ∧
    (∀ pReq,
      0 < (mkCByteBuffer1 pReq).PSize ∧
      (mkCByteBuffer1 pReq).PSize % PAGE_SIZE = 0 ∧
      (mkCByteBuffer1 pReq).PSize ≤ (mkCByteBuffer1 pReq).VSize) ∧
    (∀ (s : MState) (r : List Nat) (len : Nat),
      (CPush s r).PSize = s.PSize ∧ (CPush s r).VSize = s.VSize ∧
      ((CPop s len).2).PSize = s.PSize ∧ ((CPop s len).2).VSize = s.VSize ∧
      (CReset s).PSize = s.PSize ∧ (CReset s).VSize = s.VSize) := by
  have hpage : (0:Nat) < 4096 := by decide
  refine ⟨fun pReq vMult => ?_, ⟨by decide, by decide, by decide, by decide⟩,
    fun pReq => ?_, fun s r len => ⟨rfl, rfl, rfl, rfl, rfl, rfl⟩⟩
  · have hP : 0 < ToNextPageSize PAGE_SIZE pReq := lt_of_lt_of_le hpage
      (ToNextPageSize_ge_page 4096 pReq hpage)
    exact ⟨hP,
      ToNextPageSize_mod 4096 pReq hpage,
      allocAdjustV_ge _ _,
      allocAdjustV_mod _ _ hP (Nat.mul_mod_left vMult _)⟩
  · have hP : 0 < ToNextPageSize PAGE_SIZE pReq := lt_of_lt_of_le hpage
      (ToNextPageSize_ge_page 4096 pReq hpage)
    exact ⟨hP, ToNextPageSize_mod 4096 pReq hpage, allocAdjustV_ge _ _⟩

/-- C4 (code bug): when `memfd_create` fails after a successful reservation,
both `CByteBuffer::Allocate` and `CBuffer::Allocate` throw while leaving the
virtual reservation mapped, and `CBuffer::Allocate` also leaves it mapped
when a fixed-address install fails; only `CByteBuffer`'s install-failure
branch cleans up fully.  The spec requires every failure path to release
everything acquired. -/
theorem c4_alloc_cleanup_bug :
    CByteBufferAllocate 1048536 ⟨false, true, none⟩
      = (some "memfd_create failed", ⟨true, false⟩) ∧
    CBufferAllocate 16 ⟨false, false, some 3⟩
      = (some "Physical mapping failed", ⟨true, false⟩) ∧
    CByteBufferAllocate 16 ⟨false, false, some 3⟩
      = (some "Physical mapping failed", ⟨false, false⟩) ∧
    CByteBufferAllocate 16 ⟨true, false, none⟩
      = (some "Virtual reservation failed", ⟨false, false⟩) :=
  ⟨rfl, rfl, rfl, rfl⟩

/-- C10 (confirmed): `Reset` zeroes both cursors, changes nothing else
(contents, sizes untouched), and is idempotent, on both rings. -/
theorem c10_reset :
    (∀ s : MState,
      (CReset s).Head = 0 ∧ (CReset s).Tail = 0 ∧
      (CReset s).Data = s.Data ∧ (CReset s).PSize = s.PSize ∧
      (CReset s).VSize = s.VSize ∧ CReset (CReset s) = CReset s) ∧
    (∀ s : SState,
      (SReset s).Head = 0 ∧ (SReset s).Tail = 0 ∧
      (SReset s).Data = s.Data ∧ (SReset s).Capacity = s.Capacity ∧
      SReset (SReset s) = SReset s) :=
  ⟨fun s => ⟨rfl, rfl, rfl, rfl, rfl, rfl⟩,
   fun s => ⟨rfl, rfl, rfl, rfl, rfl⟩⟩

lemma CPush_Data_eq (s : MState) (r : List Nat) :
    (CPush s r).Data = writeBytes s.PSize s.Data s.Head r := rfl

lemma CPush_Head_eq (s : MState) (r : List Nat) :
    (CPush s r).Head = madvance s.VSize s.Head r.length := rfl

/-- C5 counterexample: a record of 8193 bytes pushed into a ring whose
physical window is 8192 bytes is not rejected anywhere: the push performs its
unconditional copy and advances the head (here past the virtual end and back
to 1), and the pop likewise; no constructor sees a record type, so there is
no construction-time check either. -/
theorem c5_counterexample :
    (mkCByteBuffer2 5000 1).PSize = 8192 ∧
    (List.replicate 8193 (7:Nat)).length = 8193 ∧
    (CPush (mkCByteBuffer2 5000 1) (List.replicate 8193 7)).Data
      = writeBytes (mkCByteBuffer2 5000 1).PSize (mkCByteBuffer2 5000 1).Data
          (mkCByteBuffer2 5000 1).Head (List.replicate 8193 7) ∧
    (CPush (mkCByteBuffer2 5000 1) (List.replicate 8193 7)).Head = 1 ∧
    ((CPop (mkCByteBuffer2 5000 1) 8193).2).Tail = 1 := by
  refine ⟨by decide, by rw [List.length_replicate], CPush_Data_eq _ _, ?_, by decide⟩
  have h4 := CPush_Head_eq (mkCByteBuffer2 5000 1) (List.replicate 8193 7)
  rw [List.length_replicate] at h4
  rw [h4]
  decide

/-- C5 (amended): the precondition `sizeof(R) ≤ PSize` is not enforced by the
implementation: `Push` and `Pop` are total and perform their copy and cursor
advance for every record size, with no size check at construction or call
time (only trivial copyability is checked, statically).  Respecting
`sizeof(R) ≤ PSize` is the caller's obligation. -/
theorem c5_no_size_check :
    ∀ (s : MState) (r : List Nat) (len : Nat),
      (CPush s r).Data = writeBytes s.PSize s.Data s.Head r ∧
      (CPush s r).Head = madvance s.VSize s.Head r.length ∧
      (CPop s len).1 = readBytes s.PSize s.Data s.Tail len ∧
      ((CPop s len).2).Tail = madvance s.VSize s.Tail len :=
  fun s r len => ⟨rfl, rfl, rfl, rfl⟩

lemma SPush_Head_eq (s : SState) (r : List Nat) :
    (SPush s r).Head = sadvance s.Capacity s.Head r.length := by
  unfold SPush sadvance
  by_cases h : s.Head + r.length ≤ s.Capacity
  · rw [if_pos h, if_pos h]
  · rw [if_neg h, if_neg h]

lemma SPop_Tail_eq (s : SState) (len : Nat) :
    ((SPop s len).2).Tail = sadvance s.Capacity s.Tail len := by
  unfold SPop sadvance
  by_cases h : s.Tail + len ≤ s.Capacity
  · rw [if_pos h, if_pos h]
  · rw [if_neg h, if_neg h]

/-- C6 (confirmed): each `Push`/`Pop` advances its cursor exactly as
`madvance` (MagicRing) / `sadvance` (SplitRing), and over any operation
sequence with record sizes `≤ PSize` the cursor ends at
`(start + total) % VSize` (resp. `% Capacity`), staying inside `[0, VSize)`
(resp. `[0, Capacity)`). -/
theorem c6_cursor_wrap :
    (∀ (s : MState) (r : List Nat) (len : Nat),
      (CPush s r).Head = madvance s.VSize s.Head r.length ∧
      ((CPop s len).2).Tail = madvance s.VSize s.Tail len) ∧
    (∀ (s : SState) (r : List Nat) (len : Nat),
      (SPush s r).Head = sadvance s.Capacity s.Head r.length ∧
      ((SPop s len).2).Tail = sadvance s.Capacity s.Tail len) ∧
    (∀ (V P c : Nat) (lens : List Nat), 0 < V → P ≤ V → c < V →
      (∀ x ∈ lens, x ≤ P) →
      List.foldl (madvance V) c lens = (c + lens.sum) % V ∧
      List.foldl (madvance V) c lens < V) ∧
    (∀ (P c : Nat) (lens : List Nat), 0 < P → c < P →
      (∀ x ∈ lens, x ≤ P) →
      List.foldl (sadvance P) c lens = (c + lens.sum) % P ∧
      List.foldl (sadvance P) c lens < P) := by
  refine ⟨fun s r len => ⟨rfl, rfl⟩,
    fun s r len => ⟨SPush_Head_eq s r, SPop_Tail_eq s len⟩,
    fun V P c lens h0 hPV hc hall => ?_, fun P c lens h0 hc hall => ?_⟩
  · have heq := foldl_advance_mod V (madvance V) h0
      (fun c2 x hc2 hx => madvance_mod hc2 hx) lens c hc
      (fun x hx => le_trans (hall x hx) hPV)
    exact ⟨heq, heq ▸ Nat.mod_lt _ h0⟩
  · have heq := foldl_advance_mod P (sadvance P) h0
      (fun c2 x hc2 hx => sadvance_mod hc2 hx) lens c hc hall
    exact ⟨heq, heq ▸ Nat.mod_lt _ h0⟩

/-- C6 witness: MagicRing fold over sizes `[2, 4]` with `V = 8`, `P = 4`,
start `3`, and SplitRing fold over the same sizes with `P = 8`. -/
theorem c6_cursor_wrap_witness :
    ((0:Nat) < 8 ∧ (4:Nat) ≤ 8 ∧ (3:Nat) < 8 ∧ (∀ x ∈ [2, 4], x ≤ 4)) ∧
    List.foldl (madvance 8) 3 [2, 4] = (3 + [2, 4].sum) % 8 ∧
    List.foldl (sadvance 8) 3 [2, 4] = (3 + [2, 4].sum) % 8 :=
  ⟨⟨by decide, by decide, by decide, by decide⟩,
   (c6_cursor_wrap.2.2.1 8 4 3 [2, 4] (by decide) (by decide) (by decide)
     (by decide)).1,
   (c6_cursor_wrap.2.2.2 8 3 [2, 4] (by decide) (by decide) (by decide)).1⟩

lemma CPop_fst (s : MState) (len : Nat) :
    (CPop s len).1 = readBytes s.PSize s.Data s.Tail len := rfl

/-- C1 (amended): pushing records totalling at most `PSize` bytes (for the
MagicRing; at most `Capacity` bytes for the SplitRing) into a fresh or
freshly reset ring and popping them back returns exactly the pushed records
in order.  (The claim's `VSize` bound for the MagicRing is refuted by
`c1_counterexample`: beyond `PSize` bytes the aliasing overwrites earlier
records.) -/
theorem c1_round_trip :
    (∀ (s : MState) (rs : List (List Nat)),
      s.Head = 0 → s.Tail = 0 → s.PSize ≤ s.VSize →
      (∀ r ∈ rs, 1 ≤ List.length r) → totalLen rs ≤ s.PSize →
      (CPopAll (CPushAll s rs) (rs.map List.length)).1 = rs) ∧
    (∀ (s : SState) (rs : List (List Nat)),
      s.Head = 0 → s.Tail = 0 →
      (∀ r ∈ rs, 1 ≤ List.length r) → totalLen rs ≤ s.Capacity →
      (SPopAll (SPushAll s rs) (rs.map List.length)).1 = rs) := by
  constructor
  · intro s rs hH hT hPV hpos htot
    have hframe := CPushAll_frame rs s
    have hdata := CPushAll_Data rs s hpos (by rw [hH]; omega)
    refine CPopAll_reads rs (CPushAll s rs) s.Data 0 ?_ ?_ ?_ ?_ hpos
    · rw [hdata, hframe.2.1, hH]
    · rw [hframe.1, hT]
    · rw [hframe.2.1]; exact htot
    · rw [hframe.2.2]; omega
  · intro s rs hH hT hpos htot
    have hframe := SPushAll_frame rs s
    have hdata := SPushAll_Data rs s hpos (by rw [hH]; omega)
    refine SPopAll_reads rs (SPushAll s rs) s.Data 0 ?_ ?_ ?_ hpos
    · rw [hdata, hframe.2, hH]
    · rw [hframe.1, hT]
    · rw [hframe.2]; omega

/-- C1 witness: a fresh `CByteBuffer(5000, 2)` round-trips `[[3], [4, 5]]`,
and a fresh `ByteBuffer(4096)` does too. -/
theorem c1_round_trip_witness :
    ((mkCByteBuffer2 5000 2).Head = 0 ∧ (mkCByteBuffer2 5000 2).Tail = 0 ∧
     (mkCByteBuffer2 5000 2).PSize ≤ (mkCByteBuffer2 5000 2).VSize ∧
     (∀ r ∈ [[3], [4, 5]], 1 ≤ List.length r) ∧
     totalLen [[3], [4, 5]] ≤ (mkCByteBuffer2 5000 2).PSize) ∧
    (CPopAll (CPushAll (mkCByteBuffer2 5000 2) [[3], [4, 5]])
        ([[3], [4, 5]].map List.length)).1 = [[3], [4, 5]] ∧
    (SPopAll (SPushAll (mkByteBuffer 4096 (fun _ => 0)) [[3], [4, 5]])
        ([[3], [4, 5]].map List.length)).1 = [[3], [4, 5]] :=
  ⟨⟨rfl, rfl, by decide, by decide, by decide⟩,
   c1_round_trip.1 (mkCByteBuffer2 5000 2) [[3], [4, 5]] rfl rfl
     (by decide) (by decide) (by decide),
   c1_round_trip.2 (mkByteBuffer 4096 (fun _ => 0)) [[3], [4, 5]] rfl rfl
     (by decide) (by decide)⟩

/-- Reading one physical window's worth of bytes after two back-to-back
window-sized records were copied from offset 0 returns the *second* record:
the second copy aliased onto the first. -/
lemma readBytes_after_two (P : Nat) (mem : Nat → Nat) (r1 r2 : List Nat)
    (h1 : r1.length = P) (h2 : r2.length = P) :
    readBytes P (writeBytes P mem 0 (r1 ++ r2)) 0 P = r2 := by
  rw [writeBytes_append, h1, Nat.zero_add]
  have hs := readBytes_writeBytes_self P (writeBytes P mem 0 r1) P 0 r2
    (le_of_eq h2) (by simp)
  rw [h2] at hs
  exact hs

/-- C1 counterexample: the spec's `VSize` bound for the MagicRing is wrong.
Pushing two 8192-byte records (total `16384 = VSize`) into a fresh
`CByteBuffer(5000, 2)` (`PSize = 8192`, `VSize = 16384`) and popping twice
does not return them in order: the second record physically overwrote the
first, so the first pop already returns the second record's bytes. -/
theorem c1_counterexample :
    totalLen [1 :: List.replicate 8191 0, 2 :: List.replicate 8191 0]
        ≤ (mkCByteBuffer2 5000 2).VSize ∧
    (∀ r ∈ [1 :: List.replicate 8191 (0:Nat), 2 :: List.replicate 8191 0],
        List.length r ≤ (mkCByteBuffer2 5000 2).PSize) ∧
    (CPopAll (CPushAll (mkCByteBuffer2 5000 2)
        [1 :: List.replicate 8191 0, 2 :: List.replicate 8191 0])
        ([1 :: List.replicate 8191 (0:Nat), 2 :: List.replicate 8191 0].map List.length)).1
      ≠ [1 :: List.replicate 8191 0, 2 :: List.replicate 8191 0] := by
  have hP : (mkCByteBuffer2 5000 2).PSize = 8192 := by decide
  have hV : (mkCByteBuffer2 5000 2).VSize = 16384 := by decide
  have hH : (mkCByteBuffer2 5000 2).Head = 0 := rfl
  have hT : (mkCByteBuffer2 5000 2).Tail = 0 := rfl
  have hl1 : (1 :: List.replicate 8191 (0:Nat)).length = 8192 := by
    rw [List.length_cons, List.length_replicate]
  have hl2 : (2 :: List.replicate 8191 (0:Nat)).length = 8192 := by
    rw [List.length_cons, List.length_replicate]
  have htot : totalLen [1 :: List.replicate 8191 (0:Nat), 2 :: List.replicate 8191 0]
      = 16384 := by
    rw [totalLen_cons, totalLen_cons, totalLen_nil, hl1, hl2]
  have hpos : ∀ r ∈ [1 :: List.replicate 8191 (0:Nat), 2 :: List.replicate 8191 0],
      1 ≤ List.length r := by
    intro r hr
    simp only [List.mem_cons, List.not_mem_nil, or_false] at hr
    rcases hr with rfl | rfl
    · rw [hl1]; omega
    · rw [hl2]; omega
  refine ⟨by rw [htot, hV], ?_, ?_⟩
  · intro r hr
    simp only [List.mem_cons, List.not_mem_nil, or_false] at hr
    rcases hr with rfl | rfl
    · rw [hl1, hP]
    · rw [hl2, hP]
  · intro heq
    have hlens : [1 :: List.replicate 8191 (0:Nat), 2 :: List.replicate 8191 0].map
        List.length = [8192, 8192] := by
      rw [List.map_cons, List.map_cons, List.map_nil, hl1, hl2]
    have hframe := CPushAll_frame
      [1 :: List.replicate 8191 (0:Nat), 2 :: List.replicate 8191 0]
      (mkCByteBuffer2 5000 2)
    have hdata := CPushAll_Data
      [1 :: List.replicate 8191 (0:Nat), 2 :: List.replicate 8191 0]
      (mkCByteBuffer2 5000 2) hpos (by rw [hH, htot, hV])
    have hflat : ([1 :: List.replicate 8191 (0:Nat), 2 :: List.replicate 8191 0]).flatten
        = (1 :: List.replicate 8191 (0:Nat)) ++ (2 :: List.replicate 8191 0) := by
      show (1 :: List.replicate 8191 (0:Nat))
          ++ ((2 :: List.replicate 8191 0) ++ []) = _
      rw [List.append_nil]
    have hTail0 : (CPushAll (mkCByteBuffer2 5000 2)
        [1 :: List.replicate 8191 (0:Nat), 2 :: List.replicate 8191 0]).Tail = 0 := by
      rw [hframe.1, hT]
    have hfirst : (CPop (CPushAll (mkCByteBuffer2 5000 2)
        [1 :: List.replicate 8191 (0:Nat), 2 :: List.replicate 8191 0]) 8192).1
        = 2 :: List.replicate 8191 0 := by
      rw [CPop_fst, hTail0, hframe.2.1, hdata, hH, hflat, hP]
      exact readBytes_after_two 8192 (mkCByteBuffer2 5000 2).Data _ _ hl1 hl2
    rw [hlens] at heq
    have hsplit2 : (CPopAll (CPushAll (mkCByteBuffer2 5000 2)
        [1 :: List.replicate 8191 (0:Nat), 2 :: List.replicate 8191 0])
        [8192, 8192]).1
        = (CPop (CPushAll (mkCByteBuffer2 5000 2)
            [1 :: List.replicate 8191 (0:Nat), 2 :: List.replicate 8191 0]) 8192).1
          :: (CPopAll (CPop (CPushAll (mkCByteBuffer2 5000 2)
            [1 :: List.replicate 8191 (0:Nat), 2 :: List.replicate 8191 0]) 8192).2
            [8192]).1 := rfl
    rw [hsplit2, hfirst] at heq
    have hhead : (2:Nat) = 1 := (List.cons.injEq _ _ _ _).mp
      ((List.cons.injEq _ _ _ _).mp heq).1 |>.1
    omega

lemma update_Data_mappedLimit (s : MState) (f : Nat → Nat) :
    mappedLimit { s with Data := f } = mappedLimit s := rfl

/-- C2 (amended): writing a byte at offset `i` and reading it back at
`i + k·PSize` works, and returns the written byte, for every offset inside
the actually mapped region `[0, (VSize / PSize) · PSize)`.  This region is
all of `[0, VSize)` for the default and the two-argument constructors (where
`PSize ∣ VSize`), but not for the one-argument constructor in general
(`c2_counterexample`). -/
theorem c2_aliasing :
    (∀ (s : MState) (i b k : Nat),
      i < mappedLimit s → i + k * s.PSize < mappedLimit s →
      (writeByteMapped s i b).bind
        (fun s2 => readByteMapped s2 (i + k * s.PSize)) = some b) ∧
    (∀ pReq vMult,
      mappedLimit (mkCByteBuffer2 pReq vMult) = (mkCByteBuffer2 pReq vMult).VSize) ∧
    mappedLimit mkCByteBuffer0 = mkCByteBuffer0.VSize := by
  refine ⟨?_, ?_, by decide⟩
  · intro s i b k hi hik
    have hw : writeByteMapped s i b
        = some { s with Data := fun j' => if j' = i % s.PSize then b else s.Data j' } := by
      unfold writeByteMapped mapsTo
      rw [if_pos hi]
      rfl
    rw [hw]
    show readByteMapped
        { s with Data := fun j' => if j' = i % s.PSize then b else s.Data j' }
        (i + k * s.PSize) = some b
    unfold readByteMapped mapsTo
    rw [update_Data_mappedLimit, if_pos ?pos]
    case pos => exact hik
    show some (if (i + k * s.PSize) % s.PSize = i % s.PSize then b
               else s.Data ((i + k * s.PSize) % s.PSize)) = some b
    rw [Nat.add_mul_mod_self_right, if_pos rfl]
  · intro pReq vMult
    have hpage : (0:Nat) < 4096 := by decide
    have hP : 0 < (mkCByteBuffer2 pReq vMult).PSize := lt_of_lt_of_le hpage
      (ToNextPageSize_ge_page 4096 pReq hpage)
    have hmod : (mkCByteBuffer2 pReq vMult).VSize % (mkCByteBuffer2 pReq vMult).PSize = 0 :=
      allocAdjustV_mod _ _ hP (Nat.mul_mod_left vMult _)
    show (mkCByteBuffer2 pReq vMult).VSize / (mkCByteBuffer2 pReq vMult).PSize
        * (mkCByteBuffer2 pReq vMult).PSize = (mkCByteBuffer2 pReq vMult).VSize
    exact Nat.div_mul_cancel (Nat.dvd_of_mod_eq_zero hmod)

/-- C2 witness: in `CByteBuffer(5000, 2)` (`PSize = 8192`), writing `9` at
offset `3` makes offset `3 + 8192` read back `9`. -/
theorem c2_aliasing_witness :
    (3 < mappedLimit (mkCByteBuffer2 5000 2) ∧
     3 + 1 * (mkCByteBuffer2 5000 2).PSize < mappedLimit (mkCByteBuffer2 5000 2)) ∧
    (writeByteMapped (mkCByteBuffer2 5000 2) 3 9).bind
      (fun s2 => readByteMapped s2 (3 + 1 * (mkCByteBuffer2 5000 2).PSize)) = some 9 :=
  ⟨⟨by decide, by decide⟩,
   c2_aliasing.1 (mkCByteBuffer2 5000 2) 3 9 1 (by decide) (by decide)⟩

/-- C2 counterexample: `CByteBuffer(50000)` has `PSize = 53248` and
`VSize = 4294967296`, which is not a multiple of `PSize`; the mapping loop
covers only `(VSize / PSize) · PSize = 4294930432` bytes, so byte access at
offset `4294930432 < VSize` hits the still-`PROT_NONE` tail of the
reservation: neither writable nor readable, contradicting the claim for that
`i` (already at `k = 0`). -/
theorem c2_counterexample :
    (mkCByteBuffer1 50000).PSize = 53248 ∧
    (mkCByteBuffer1 50000).VSize = 4294967296 ∧
    4294930432 < (mkCByteBuffer1 50000).VSize ∧
    mappedLimit (mkCByteBuffer1 50000) = 4294930432 ∧
    writeByteMapped (mkCByteBuffer1 50000) 4294930432 1 = none ∧
    readByteMapped (mkCByteBuffer1 50000) 4294930432 = none := by
  refine ⟨by decide, by decide, by decide, by decide, ?_, ?_⟩
  · unfold writeByteMapped mapsTo
    rw [if_neg (by decide)]
    rfl
  · unfold readByteMapped mapsTo
    rw [if_neg (by decide)]
    rfl

/-- C8 (amended): the single unconditional copy of `Push`/`Pop` stays below
`VSize` precisely when the cursor satisfies `cursor + len ≤ VSize`; the
push/pop discipline does *not* guarantee this for mixed record sizes
(`c8_counterexample`). -/
theorem c8_access_in_bounds :
    ∀ (s : MState) (len o : Nat),
      (s.Head + len ≤ s.VSize → o ∈ accessOffsets s.Head len → o < s.VSize) ∧
      (s.Tail + len ≤ s.VSize → o ∈ accessOffsets s.Tail len → o < s.VSize) := by
  intro s len o
  constructor <;> intro hle hmem <;>
  · simp only [accessOffsets, List.mem_map, List.mem_range] at hmem
    obtain ⟨t, ht, rfl⟩ := hmem
    omega

/-- C8 witness: at a fresh `CByteBuffer(5000, 2)`, an 8-byte push touches
offset 5, which is below `VSize`. -/
theorem c8_access_in_bounds_witness :
    ((mkCByteBuffer2 5000 2).Head + 8 ≤ (mkCByteBuffer2 5000 2).VSize) ∧
    5 ∈ accessOffsets (mkCByteBuffer2 5000 2).Head 8 ∧
    5 < (mkCByteBuffer2 5000 2).VSize :=
  ⟨by decide, by decide,
   (c8_access_in_bounds (mkCByteBuffer2 5000 2) 8 5).1 (by decide) (by decide)⟩

/-- C8 counterexample: in `CByteBuffer(5000, 2)` (`PSize = 8192`,
`VSize = 16384`), pushing 16383 one-byte records (each `≤ PSize`) brings
`Head` to `16383`; the next push of an 8-byte record (also `≤ PSize`)
performs its single unconditional copy over offsets `[16383, 16391)`, which
include `16384 ≥ VSize` — an access beyond the end of the mapped virtual
range. -/
theorem c8_counterexample :
    (mkCByteBuffer2 5000 2).PSize = 8192 ∧
    (mkCByteBuffer2 5000 2).VSize = 16384 ∧
    (∀ r ∈ List.replicate 16383 [1], List.length r ≤ (mkCByteBuffer2 5000 2).PSize) ∧
    (CPushAll (mkCByteBuffer2 5000 2) (List.replicate 16383 [1])).Head = 16383 ∧
    (8:Nat) ≤ (mkCByteBuffer2 5000 2).PSize ∧
    16384 ∈ accessOffsets
      (CPushAll (mkCByteBuffer2 5000 2) (List.replicate 16383 [1])).Head 8 ∧
    ¬ (16384 < (mkCByteBuffer2 5000 2).VSize) := by
  have hV : (mkCByteBuffer2 5000 2).VSize = 16384 := by decide
  have hH : (mkCByteBuffer2 5000 2).Head = 0 := rfl
  have hHead : (CPushAll (mkCByteBuffer2 5000 2) (List.replicate 16383 [1])).Head
      = 16383 := by
    rw [CPushAll_Head, List.map_replicate, hV, hH]
    show List.foldl (madvance 16384) 0 (List.replicate 16383 1) = 16383
    rw [foldl_advance_mod 16384 (madvance 16384) (by decide)
      (fun c2 x hc2 hx => madvance_mod hc2 hx) (List.replicate 16383 1) 0
      (by decide)
      (fun x hx => by rw [List.eq_of_mem_replicate hx]; decide)]
    rw [List.sum_replicate, smul_eq_mul, Nat.mul_one, Nat.zero_add,
      Nat.mod_eq_of_lt (by decide)]
  refine ⟨by decide, hV, ?_, hHead, by decide, ?_, by decide⟩
  · intro r hr
    rw [List.eq_of_mem_replicate hr]
    decide
  · rw [hHead]
    decide

/-- A copy lands on the same physical cells from any two bases that agree
modulo `P`. -/
lemma writeBytes_congr_base (P : Nat) (r : List Nat) :
    ∀ (mem : Nat → Nat) (a b : Nat), a % P = b % P →
      writeBytes P mem a r = writeBytes P mem b r := by
  induction r with
  | nil => intro mem a b _; rfl
  | cons v rr ih =>
    intro mem a b hab
    show writeBytes P (writeByte P mem a v) (a + 1) rr
        = writeBytes P (writeByte P mem b v) (b + 1) rr
    have h1 : writeByte P mem a v = writeByte P mem b v := by
      funext j
      unfold writeByte
      rw [hab]
    rw [h1]
    refine ih _ (a + 1) (b + 1) ?_
    have hmeq : a ≡ b [MOD P] := hab
    exact hmeq.add_right 1

lemma SPop_hot_fst (s : SState) (len : Nat) (h : s.Tail + len ≤ s.Capacity) :
    (SPop s len).1 = readBytes s.Capacity s.Data s.Tail len := by
  unfold SPop
  rw [if_pos h]

lemma SPop_cold_fst (s : SState) (len : Nat) (h : ¬ (s.Tail + len ≤ s.Capacity)) :
    (SPop s len).1
      = readBytes s.Capacity s.Data s.Tail (s.Capacity - s.Tail)
        ++ readBytes s.Capacity s.Data 0 (len - (s.Capacity - s.Tail)) := by
  unfold SPop
  rw [if_neg h]

/-- The two cold-path reads of a split ring recover a two-part record that was
written across the wrap point (here phrased with the parts `t`, `d`:
`t` fills `[c, P)` and `d` wraps to `[0, d.length)`, `d` short of `c`). -/
lemma cold_pop_chunks (P : Nat) (mem : Nat → Nat) (c : Nat) (t d : List Nat)
    (hlt : t.length = P - c) (hc : c < P) (hd : d.length ≤ c) :
    readBytes P (writeBytes P mem c (t ++ d)) c (P - c)
      ++ readBytes P (writeBytes P mem c (t ++ d)) 0 d.length = t ++ d := by
  have hW : writeBytes P mem c (t ++ d)
      = writeBytes P (writeBytes P mem c t) 0 d := by
    rw [writeBytes_append, hlt, show c + (P - c) = P from by omega]
    exact writeBytes_congr_base P d _ P 0 (by simp)
  rw [hW]
  have hchunk1 : readBytes P (writeBytes P (writeBytes P mem c t) 0 d) c (P - c)
      = t := by
    rw [readBytes_writeBytes_frame]
    · rw [← hlt]
      exact readBytes_writeBytes_self P mem c c t (by omega) rfl
    · intro t' u ht' hu heq
      rw [Nat.zero_add, Nat.mod_eq_of_lt (by omega), Nat.mod_eq_of_lt (by omega)] at heq
      omega
  have hchunk2 : readBytes P (writeBytes P (writeBytes P mem c t) 0 d) 0 d.length
      = d :=
    readBytes_writeBytes_self P (writeBytes P mem c t) 0 0 d (by omega) rfl
  rw [hchunk1, hchunk2]

/-- C7 (confirmed): `ByteBuffer::Push` of `s = sizeof(T)` bytes at cursor `c`
takes the contiguous hot path when `c + s ≤ Capacity` (cursor `c + s`,
wrapping to 0 exactly on `c + s = Capacity`) and the two-part cold path when
`c + s > Capacity` (`firstPart = Capacity - c` bytes at `[c, Capacity)`,
`secondPart` at `[0, secondPart)`, cursor `secondPart`); in both cases a
`Pop` at the same cursor returns the record byte-for-byte. -/
theorem c7_split_paths (P : Nat) (mem : Nat → Nat) (c : Nat) (r : List Nat)
    (hc : c < P) (hlen : r.length ≤ P) (hpos : 1 ≤ r.length) :
    ((c + r.length ≤ P →
      (SPush ⟨P, mem, c, c⟩ r).Data = writeBytes P mem c r ∧
      (c + r.length < P → (SPush ⟨P, mem, c, c⟩ r).Head = c + r.length) ∧
      ((SPush ⟨P, mem, c, c⟩ r).Head = 0 ↔ c + r.length = P)) ∧
     (P < c + r.length →
      (SPush ⟨P, mem, c, c⟩ r).Data
        = writeBytes P (writeBytes P mem c (r.take (P - c))) 0 (r.drop (P - c)) ∧
      (SPush ⟨P, mem, c, c⟩ r).Head = r.length - (P - c))) ∧
    (SPop (SPush ⟨P, mem, c, c⟩ r) r.length).1 = r := by
  by_cases h : c + r.length ≤ P
  · have hpush : SPush ⟨P, mem, c, c⟩ r
        = ⟨P, writeBytes P mem c r,
           if c + r.length = P then 0 else c + r.length, c⟩ := by
      unfold SPush
      rw [if_pos h]
    refine ⟨⟨fun _ => ⟨by rw [hpush], fun hlt => ?_, ?_⟩,
      fun hcold => absurd h (by omega)⟩, ?_⟩
    · rw [hpush]
      show (if c + r.length = P then 0 else c + r.length) = c + r.length
      rw [if_neg (by omega)]
    · rw [hpush]
      show (if c + r.length = P then 0 else c + r.length) = 0 ↔ c + r.length = P
      by_cases he : c + r.length = P
      · rw [if_pos he]
        exact ⟨fun _ => he, fun _ => rfl⟩
      · rw [if_neg he]
        constructor <;> intro hx <;> omega
    · rw [hpush]
      rw [SPop_hot_fst ⟨P, writeBytes P mem c r,
        if c + r.length = P then 0 else c + r.length, c⟩ r.length h]
      show readBytes P (writeBytes P mem c r) c r.length = r
      exact readBytes_writeBytes_self P mem c c r hlen rfl
  · have hpush : SPush ⟨P, mem, c, c⟩ r
        = ⟨P, writeBytes P (writeBytes P mem c (r.take (P - c))) 0 (r.drop (P - c)),
           r.length - (P - c), c⟩ := by
      unfold SPush
      rw [if_neg h]
    have hlt : (r.take (P - c)).length = P - c := by
      rw [List.length_take, Nat.min_eq_left (by omega)]
    have hld : (r.drop (P - c)).length = r.length - (P - c) := List.length_drop _ _
    refine ⟨⟨fun hh => absurd hh h, fun _ => ⟨by rw [hpush], by rw [hpush]⟩⟩, ?_⟩
    rw [hpush]
    rw [SPop_cold_fst ⟨P, writeBytes P (writeBytes P mem c (r.take (P - c))) 0
      (r.drop (P - c)), r.length - (P - c), c⟩ r.length h]
    show readBytes P (writeBytes P (writeBytes P mem c (r.take (P - c))) 0
        (r.drop (P - c))) c (P - c)
      ++ readBytes P (writeBytes P (writeBytes P mem c (r.take (P - c))) 0
        (r.drop (P - c))) 0 (r.length - (P - c)) = r
    have htd := List.take_append_drop (P - c) r
    have happ := cold_pop_chunks P mem c (r.take (P - c)) (r.drop (P - c))
      hlt hc (by omega)
    rw [htd] at happ
    have hDeq : writeBytes P (writeBytes P mem c (r.take (P - c))) 0 (r.drop (P - c))
        = writeBytes P mem c r := by
      conv_rhs => rw [← htd]
      rw [writeBytes_append, hlt, show c + (P - c) = P from by omega]
      exact writeBytes_congr_base P (r.drop (P - c)) _ 0 P (by simp)
    rw [hDeq, ← hld]
    exact happ

/-- C7 witness: `Capacity = 4`, cursor `3`, record `[7, 8]` (cold path):
push then pop returns `[7, 8]`. -/
theorem c7_split_paths_witness :
    ((3:Nat) < 4 ∧ ([7, 8] : List Nat).length ≤ 4 ∧ 1 ≤ ([7, 8] : List Nat).length) ∧
    (SPop (SPush ⟨4, fun _ => 0, 3, 3⟩ [7, 8]) ([7, 8] : List Nat).length).1 = [7, 8] :=
  ⟨⟨by decide, by decide, by decide⟩,
   (c7_split_paths 4 (fun _ => 0) 3 [7, 8] (by decide) (by decide) (by decide)).2⟩
